import Mathlib

/-!
Verification development for `docs/generate_rst.py`: a pipeline that turns
`nim jsondoc` JSON output into Sphinx RST pages.

The Python source is shallowly embedded below.  Strings are modelled as
`List Char` (with `String` wrappers where the page-assembly code works on
Python `str` values).  Each `re.sub(pattern, repl, text)` call is modelled
as a left-to-right scanner (`scanSub`) driven by a matcher that recognises
the pattern at the head of the remaining input — exactly the semantics of
`re.sub`: find the leftmost match, emit the replacement, continue scanning
after the match (replacements are not rescanned).  The scanner carries a
fuel argument equal to the input length; every matcher consumes at least
one character on success, so the fuel never runs out on the initial call.
-/

/-- Whitespace as Python's `str.strip` / `\s` sees it (ASCII subset:
space, tab, newline, carriage return, vertical tab, form feed). -/
def isWs (c : Char) : Bool :=
  c = ' ' || c = '\t' || c = '\n' || c = '\r' || c = '\x0b' || c = '\x0c'

/-- Python `str.strip()`: drop whitespace from both ends. -/
def stripL (s : List Char) : List Char :=
  ((s.dropWhile isWs).reverse.dropWhile isWs).reverse

/-- Split at the first occurrence of `pat` (a non-empty literal): returns the
text before the occurrence and the text after it.  Models the search that a
lazy `(.*?)` followed by a literal performs. -/
def splitFirst (pat : List Char) : List Char → Option (List Char × List Char)
  | [] => none
  | c :: cs =>
    if pat.isPrefixOf (c :: cs) then some ([], (c :: cs).drop pat.length)
    else (splitFirst pat cs).map (fun p => (c :: p.1, p.2))

/-- Split at the first occurrence of `p1` or `p2`, refusing to cross a
newline.  Models `(.*?)` (no DOTALL) followed by an alternation of two
literal close tags. -/
def splitFirst2NoNl (p1 p2 : List Char) : List Char → Option (List Char × List Char)
  | [] => none
  | c :: cs =>
    if p1.isPrefixOf (c :: cs) then some ([], (c :: cs).drop p1.length)
    else if p2.isPrefixOf (c :: cs) then some ([], (c :: cs).drop p2.length)
    else if c = '\n' then none
    else (splitFirst2NoNl p1 p2 cs).map (fun p => (c :: p.1, p.2))

/-- Split at the first occurrence of the single character `stop`:
models `[^X]*X` (the characters before the first `stop` cannot be `stop`). -/
def splitAtChar (stop : Char) : List Char → Option (List Char × List Char)
  | [] => none
  | c :: cs =>
    if c = stop then some ([], cs)
    else (splitAtChar stop cs).map (fun p => (c :: p.1, p.2))

/-- The generic `re.sub` scanner.  `tryM s` returns `some (repl, rest)` when
the pattern matches at the head of `s` (with `rest` the input after the
match), `none` otherwise.  On a match the replacement is emitted and
scanning continues after the match; otherwise one character is copied.
`fuel` is initialised to the input length; every matcher used below
consumes at least one character, so the `0` case is never reached from the
wrappers below. -/
def scanSub (tryM : List Char → Option (List Char × List Char)) :
    Nat → List Char → List Char
  | 0, s => s
  | _ + 1, [] => []
  | fuel + 1, c :: cs =>
    match tryM (c :: cs) with
    | some (repl, rest) => repl ++ scanSub tryM fuel rest
    | none => c :: scanSub tryM fuel cs

/-- Matcher for `<[^>]+>` (generic tag stripping, replacement empty):
`generate_rst.py` line 102. -/
def matchAnyTag : List Char → Option (List Char × List Char)
  | '<' :: c :: cs =>
    if c = '>' then none
    else (splitAtChar '>' (c :: cs)).map (fun p => (([] : List Char), p.2))
  | _ => none

/-- `re.sub(r"<[^>]+>", "", text)` — strip all remaining tags. -/
def stripTags (s : List Char) : List Char := scanSub matchAnyTag s.length s

/-- Matcher for `<tt[^>]*>(.*?)</tt>` (DOTALL) with replacement
`` `` `` ++ inner-with-tags-stripped ++ `` `` `` (the `_replace_tt`
helper, `generate_rst.py` lines 81-85). -/
def matchTT (s : List Char) : Option (List Char × List Char) :=
  if ['<', 't', 't'].isPrefixOf s then
    match splitAtChar '>' (s.drop 3) with
    | none => none
    | some (_, r1) =>
      (splitFirst ['<', '/', 't', 't', '>'] r1).map
        (fun p => ('`' :: '`' :: stripTags p.1 ++ ['`', '`'], p.2))
  else none

/-- Matcher for `<p>(.*?)</p>` (DOTALL), replacement `\1\n\n`
(`generate_rst.py` line 88). -/
def matchP (s : List Char) : Option (List Char × List Char) :=
  if ['<', 'p', '>'].isPrefixOf s then
    (splitFirst ['<', '/', 'p', '>'] (s.drop 3)).map
      (fun p => (p.1 ++ ['\n', '\n'], p.2))
  else none

/-- Matcher for `<(?:b|strong)>(.*?)</(?:b|strong)>` (no DOTALL),
replacement `**\1**` (`generate_rst.py` line 91). -/
def matchBold (s : List Char) : Option (List Char × List Char) :=
  let close := fun (rest : List Char) =>
    (splitFirst2NoNl ['<', '/', 'b', '>'] ['<', '/', 's', 't', 'r', 'o', 'n', 'g', '>'] rest).map
      (fun p => ('*' :: '*' :: p.1 ++ ['*', '*'], p.2))
  if ['<', 'b', '>'].isPrefixOf s then close (s.drop 3)
  else if ['<', 's', 't', 'r', 'o', 'n', 'g', '>'].isPrefixOf s then close (s.drop 8)
  else none

/-- Matcher for `<(?:em|i)>(.*?)</(?:em|i)>` (no DOTALL), replacement
`*\1*` (`generate_rst.py` line 94). -/
def matchEm (s : List Char) : Option (List Char × List Char) :=
  let close := fun (rest : List Char) =>
    (splitFirst2NoNl ['<', '/', 'e', 'm', '>'] ['<', '/', 'i', '>'] rest).map
      (fun p => ('*' :: p.1 ++ ['*'], p.2))
  if ['<', 'e', 'm', '>'].isPrefixOf s then close (s.drop 4)
  else if ['<', 'i', '>'].isPrefixOf s then close (s.drop 3)
  else none

/-- Matcher for `<ul[^>]*>`, replacement `"\n"` (`generate_rst.py` line 97). -/
def matchUlOpen (s : List Char) : Option (List Char × List Char) :=
  if ['<', 'u', 'l'].isPrefixOf s then
    (splitAtChar '>' (s.drop 3)).map (fun p => (['\n'], p.2))
  else none

/-- Matcher for `</ul>`, replacement `"\n"` (`generate_rst.py` line 98). -/
def matchUlClose (s : List Char) : Option (List Char × List Char) :=
  if ['<', '/', 'u', 'l', '>'].isPrefixOf s then some (['\n'], s.drop 5)
  else none

/-- Matcher for `<li>(.*?)</li>` (DOTALL), replacement `\n- \1`
(`generate_rst.py` line 99). -/
def matchLi (s : List Char) : Option (List Char × List Char) :=
  if ['<', 'l', 'i', '>'].isPrefixOf s then
    (splitFirst ['<', '/', 'l', 'i', '>'] (s.drop 4)).map
      (fun p => ('\n' :: '-' :: ' ' :: p.1, p.2))
  else none

/-- Matcher for a literal string replacement (Python `str.replace`). -/
def matchLit (pat repl : List Char) (s : List Char) : Option (List Char × List Char) :=
  if pat.isPrefixOf s then some (repl, s.drop pat.length) else none

/-- One `str.replace(pat, repl)` call. -/
def replaceAll (pat repl s : List Char) : List Char :=
  scanSub (matchLit pat repl) s.length s

/-- Matcher for `\n{3,}` (greedy), replacement `"\n\n"`
(`generate_rst.py` line 115). -/
def matchCollapse : List Char → Option (List Char × List Char)
  | '\n' :: '\n' :: '\n' :: rest =>
    some (['\n', '\n'], rest.dropWhile (· = '\n'))
  | _ => none

def subTT (s : List Char) : List Char := scanSub matchTT s.length s
def subP (s : List Char) : List Char := scanSub matchP s.length s
def subBold (s : List Char) : List Char := scanSub matchBold s.length s
def subEm (s : List Char) : List Char := scanSub matchEm s.length s
def subUlOpen (s : List Char) : List Char := scanSub matchUlOpen s.length s
def subUlClose (s : List Char) : List Char := scanSub matchUlClose s.length s
def subLi (s : List Char) : List Char := scanSub matchLi s.length s
def collapseBlank (s : List Char) : List Char := scanSub matchCollapse s.length s

/-- The tag-rewriting phase of `_html_to_rst` (lines 85-102), in source
order: `tt`, `p`, bold, emphasis, `ul` open/close, `li`, then generic
tag stripping. -/
def tagPhase (s : List Char) : List Char :=
  stripTags (subLi (subUlClose (subUlOpen (subEm (subBold (subP (subTT s)))))))

/-- The entity-decoding phase of `_html_to_rst` (lines 105-112): six
chained `str.replace` calls, in source order. -/
def entPhase (s : List Char) : List Char :=
  replaceAll ['&', 'n', 'b', 's', 'p', ';'] [' ']
    (replaceAll ['&', '#', '3', '9', ';'] ['\x27']
      (replaceAll ['&', 'q', 'u', 'o', 't', ';'] ['"']
        (replaceAll ['&', 'a', 'm', 'p', ';'] ['&']
          (replaceAll ['&', 'g', 't', ';'] ['>']
            (replaceAll ['&', 'l', 't', ';'] ['<'] s)))))

/-- `_html_to_rst` (`generate_rst.py` lines 74-116): the Fragment
Converter.  Empty input short-circuits to `""`; otherwise tags are
rewritten, entities decoded, runs of three or more newlines collapsed to
two, and the result stripped. -/
def htmlToRst (s : List Char) : List Char :=
  if s.isEmpty then [] else stripL (collapseBlank (entPhase (tagPhase s)))

/-- `_html_to_rst` on Python `str` values. -/
def htmlToRstS (s : String) : String := String.mk (htmlToRst s.data)

/-- Matcher for `_PRAGMA_RE = re.compile(r"\s*\{\..*?\.\}", re.DOTALL)`
(`generate_rst.py` line 119): optional leading whitespace, a literal
`{.`, a lazy body, and the first following `.}`.  Replacement is empty. -/
def matchPragma (s : List Char) : Option (List Char × List Char) :=
  match s.dropWhile isWs with
  | '{' :: '.' :: rest =>
    (splitFirst ['.', '}'] rest).map (fun p => (([] : List Char), p.2))
  | _ => none

/-- `_PRAGMA_RE.sub("", code)`. -/
def pragmaScan (s : List Char) : List Char := scanSub matchPragma s.length s

/-- `_clean_code` (`generate_rst.py` lines 122-124): strip Nim pragmas
from a signature, then strip surrounding whitespace. -/
def cleanCode (s : List Char) : List Char := stripL (pragmaScan s)

/-- `_clean_code` on Python `str` values. -/
def cleanCodeS (s : String) : String := String.mk (cleanCode s.data)

-- Sanity checks against the spec's end-to-end example (§8).
example : htmlToRstS "<p>Adds two numbers.</p>" = "Adds two numbers." := by decide
example : cleanCodeS "proc add(a,b:int):int \x7b.inline.\x7d" = "proc add(a,b:int):int" := by
  decide
example : htmlToRstS "<b>X</b> and <em>Y</em>" = "**X** and *Y*" := by decide
example : htmlToRstS "<ul><li>A</li><li>B</li></ul>" = "- A\n- B" := by decide

/-!
## Data model and page assembly

One JSON entry as `_make_module_rst` consumes it: the fields that may be
absent in the exporter's JSON are `Option`s (`entry.get(...)` with a
default models a present-or-absent field; `entry["name"]` raises
`KeyError` when absent, modelled by a `none` result of the assembler).
-/

structure JEntry where
  name : Option String
  type : Option String
  code : Option String
  description : Option String
deriving DecidableEq

/-- The top-level JSON object (`data` in `_make_module_rst`):
`data.get("moduleDescription", "")` and `data.get("entries", [])`. -/
structure DocData where
  moduleDescription : Option String
  entries : Option (List JEntry)
deriving DecidableEq

/-- `_KIND_ORDER` (`generate_rst.py` lines 44-55). -/
def KIND_ORDER : List String :=
  ["skType", "skConst", "skProc", "skFunc", "skMethod",
   "skIterator", "skTemplate", "skMacro", "skLet", "skVar"]

/-- `_KIND_LABELS` (`generate_rst.py` lines 56-67). -/
def KIND_LABELS : List (String × String) :=
  [("skType", "Types"), ("skConst", "Constants"), ("skProc", "Procedures"),
   ("skFunc", "Functions"), ("skMethod", "Methods"), ("skIterator", "Iterators"),
   ("skTemplate", "Templates"), ("skMacro", "Macros"), ("skLet", "Lets"),
   ("skVar", "Variables")]

/-- `entry.get("type", "skProc")` (`generate_rst.py` line 181). -/
def kindOf (e : JEntry) : String := e.type.getD "skProc"

/-- `_KIND_LABELS.get(kind, kind)` (`generate_rst.py` line 189). -/
def kindLabel (k : String) : String :=
  ((KIND_LABELS.find? (fun p => p.1 = k)).map Prod.snd).getD k

/-- One step of building `by_kind` (`by_kind.setdefault(kind, []).append(entry)`,
`generate_rst.py` line 182): append to the existing group for `k`, or add a
new group at the end (Python dicts preserve insertion order). -/
def addToKind (acc : List (String × List JEntry)) (k : String) (e : JEntry) :
    List (String × List JEntry) :=
  match acc with
  | [] => [(k, [e])]
  | (k', l) :: rest =>
    if k' = k then (k', l ++ [e]) :: rest else (k', l) :: addToKind rest k e

/-- The `by_kind` grouping loop (`generate_rst.py` lines 179-182). -/
def byKind (entries : List JEntry) : List (String × List JEntry) :=
  entries.foldl (fun acc e => addToKind acc (kindOf e) e) []

/-- `by_kind.get(kind)` with the falsy test folded in: a missing key and an
empty list both make `if not entries: continue` fire, so both are `[]`. -/
def kindGet (acc : List (String × List JEntry)) (k : String) : List JEntry :=
  ((acc.find? (fun p => p.1 = k)).map Prod.snd).getD []

/-- `"c" * n` (a rule/underline of width `n`). -/
def mkBar (c : Char) (n : Nat) : String := String.mk (List.replicate n c)

/-- Python `str.splitlines()` restricted to `\n` separators (the only line
separator `nim jsondoc` signatures contain): split on `\n`. -/
def splitNl : List Char → List (List Char)
  | [] => [[]]
  | c :: cs =>
    if c = '\n' then [] :: splitNl cs
    else
      match splitNl cs with
      | [] => [[c]]
      | a :: r => (c :: a) :: r

/-- `str.splitlines()`: like splitting on `\n` but with no entry for a
trailing terminator (`"a\n".splitlines() == ["a"]`, `"".splitlines() == []`). -/
def pySplitlines (l : List Char) : List (List Char) :=
  let p := splitNl l
  if p.getLast? = some [] then p.dropLast else p

/-- The lines emitted for one symbol entry (`generate_rst.py` lines
195-217), given the occurrence `count` the `name_count` dict held for
`name` when the entry was reached.  This is the loop body of the
per-section entry loop, factored out of `renderEntries` verbatim. -/
def entryBlock (m : String) (count : Nat) (nm rawCode rawDesc : String) : List String :=
  let code := cleanCodeS rawCode
  let desc := htmlToRstS rawDesc
  let label := if count = 0 then m ++ "." ++ nm else m ++ "." ++ nm ++ "." ++ toString count
  let heading := if count = 0 then nm else nm ++ " (" ++ toString (count + 1) ++ ")"
  (".. _" ++ label ++ ":") :: "" :: heading :: mkBar '~' heading.length :: "" ::
    ((if code = "" then [] else
        [".. code-block:: nim", ""] ++
          (pySplitlines code.data).map (fun l => "   " ++ String.mk l) ++ [""]) ++
     (if desc = "" then [] else [desc, ""]))

/-- The per-section entry loop (`generate_rst.py` lines 193-217).  `cnt` is
the `name_count` dict (total function, absent keys read as `0`); it is
threaded through the entries exactly as the Python loop updates it.
`entry["name"]` on an entry without a name raises `KeyError`, which
aborts the whole computation: modelled by `none`. -/
def renderEntries (m : String) : (String → Nat) → List JEntry → Option (List String)
  | _, [] => some []
  | cnt, e :: es =>
    match e.name with
    | none => none
    | some nm =>
      (renderEntries m (fun x => if x = nm then cnt nm + 1 else cnt x) es).map
        (fun rest =>
          entryBlock m (cnt nm) nm (e.code.getD "") (e.description.getD "") ++ rest)

/-- One iteration of the kind loop (`generate_rst.py` lines 184-217):
skip kinds with no entries (`if not entries: continue`), otherwise emit the
section heading and the entries, with a fresh `name_count`. -/
def renderSection (m : String) (entriesAll : List JEntry) (kind : String) :
    Option (List String) :=
  let entries := kindGet (byKind entriesAll) kind
  if entries.isEmpty then some []
  else
    let sectionLabel := kindLabel kind
    (renderEntries m (fun _ => 0) entries).map
      (fun ls => sectionLabel :: mkBar '-' sectionLabel.length :: "" :: ls)

/-- The kind loop over `_KIND_ORDER` (`generate_rst.py` line 184). -/
def renderSections (m : String) (entriesAll : List JEntry) :
    List String → Option (List String)
  | [] => some []
  | k :: ks =>
    match renderSection m entriesAll k with
    | none => none
    | some ls => (renderSections m entriesAll ks).map (fun rest => ls ++ rest)

/-- The `lines` list built by `_make_module_rst` (`generate_rst.py` lines
166-217): title block, optional module description, then the sections. -/
def makeModuleRstLines (moduleName title : String) (data : DocData) :
    Option (List String) :=
  let bar := mkBar '=' title.length
  let moduleDesc := htmlToRstS (data.moduleDescription.getD "")
  let head := [bar, title, bar, ""] ++ (if moduleDesc = "" then [] else [moduleDesc, ""])
  (renderSections moduleName (data.entries.getD []) KIND_ORDER).map (fun ls => head ++ ls)

/-- `_make_module_rst` (`generate_rst.py` lines 166-219):
`"\n".join(lines) + "\n"`. -/
def makeModuleRst (moduleName title : String) (data : DocData) : Option String :=
  (makeModuleRstLines moduleName title data).map
    (fun ls => String.intercalate "\n" ls ++ "\n")

/-- The `lines` list built by `_make_api_index` (`generate_rst.py` lines
222-241). -/
def makeApiIndexLines (generated : List String) : List String :=
  [mkBar '=' 13, "API Reference", mkBar '=' 13, "",
   "Complete reference for all exported symbols.",
   "Generated automatically from source docstrings via ``nim jsondoc``.",
   "", ".. toctree::", "   :maxdepth: 1", "   :caption: Modules", ""] ++
  generated.map (fun n => "   " ++ n) ++ [""]

/-- `_make_api_index`: `"\n".join(lines)`. -/
def makeApiIndex (generated : List String) : String :=
  String.intercalate "\n" (makeApiIndexLines generated)

/-!
## Orchestrator

`main` (`generate_rst.py` lines 248-285).  The external world (exporter
subprocess outcome, JSON file contents/parseability) is an oracle per
configured module: `Feed.exporterFail` covers `_run_jsondoc` returning
`False` (non-zero exit, missing output file, or missing `nim` binary);
`Feed.parseFail` covers the caught `json.JSONDecodeError/OSError`;
`Feed.parsed d` is a successfully loaded JSON object.  An exception
escaping `_make_module_rst` (e.g. `KeyError` on an entry with no
`"name"`) is not caught by `main`, so the whole run aborts: `none`.
A Python process dying on an uncaught exception exits non-zero. -/

inductive Feed where
  | exporterFail : Feed
  | parseFail : Feed
  | parsed : DocData → Feed
deriving DecidableEq

structure ModuleCfg where
  name : String
  title : String
  feed : Feed
deriving DecidableEq

/-- The per-module loop of `main` (`generate_rst.py` lines 255-275),
accumulating `generated` and `errors` in order. -/
def processModules : List ModuleCfg → List String → List String →
    Option (List String × List String)
  | [], gen, errs => some (gen, errs)
  | c :: ms, gen, errs =>
    match c.feed with
    | Feed.exporterFail => processModules ms gen (errs ++ [c.name])
    | Feed.parseFail => processModules ms gen (errs ++ [c.name])
    | Feed.parsed d =>
      match makeModuleRst c.name c.title d with
      | none => none
      | some _ => processModules ms (gen ++ [c.name]) errs

/-- `main` minus the file writes: exit code (lines 282-285), generated
list, error list.  `none` models the run dying on an uncaught exception. -/
def runMain (mods : List ModuleCfg) : Option (Nat × List String × List String) :=
  (processModules mods [] []).map
    (fun p => (if p.2.isEmpty then 0 else 1, p.1, p.2))

/-- The process exit status (`sys.exit(main())`; an uncaught exception
also terminates the interpreter with a non-zero status). -/
def processExit (mods : List ModuleCfg) : Nat :=
  match runMain mods with
  | none => 1
  | some p => p.1

/-- The `api/index.rst` lines written after the loop (line 279); not
written at all if the run died. -/
def runIndexLines (mods : List ModuleCfg) : Option (List String) :=
  (runMain mods).map (fun p => makeApiIndexLines p.2.1)

/-- A module that completes the whole pipeline: exporter and JSON load
succeed and page assembly does not raise. -/
def moduleOk (c : ModuleCfg) : Bool :=
  match c.feed with
  | Feed.parsed d => (makeModuleRst c.name c.title d).isSome
  | _ => false

/-- A module whose processing raises an uncaught exception (page assembly
fails on loaded JSON). -/
def moduleCrash (c : ModuleCfg) : Bool :=
  match c.feed with
  | Feed.parsed d => (makeModuleRst c.name c.title d).isNone
  | _ => false

-- End-to-end sanity check of the page assembler against the spec's §8
-- scenario.
example :
    makeModuleRstLines "mathutil" "mathutil" ⟨some "", some [⟨some "add", some "skProc",
      some "proc add(a,b:int):int \x7b.inline.\x7d", some "<p>Adds two numbers.</p>"⟩]⟩ =
    some ["========", "mathutil", "========", "",
      "Procedures", "----------", "",
      ".. _mathutil.add:", "", "add", "~~~", "",
      ".. code-block:: nim", "", "   proc add(a,b:int):int", "",
      "Adds two numbers.", ""] := by decide

/-!
## Generic scanner lemmas
-/

/-- If the matcher fails on every non-empty suffix of `s`, the scan is the
identity, whatever the fuel. -/
theorem scanSub_eq_self (tryM : List Char → Option (List Char × List Char)) :
    ∀ (fuel : Nat) (s : List Char),
      (∀ t, t ≠ [] → t <:+ s → tryM t = none) → scanSub tryM fuel s = s := by
  intro fuel
  induction fuel with
  | zero => intro s _; rfl
  | succ n ih =>
    intro s h
    cases s with
    | nil => rfl
    | cons c cs =>
      have hm : tryM (c :: cs) = none := h (c :: cs) (by simp) List.suffix_rfl
      simp only [scanSub, hm]
      rw [ih cs (fun t ht hts => h t ht (hts.trans (List.suffix_cons c cs)))]

theorem not_isPrefixOf_head {a c : Char} {pat cs : List Char} (h : c ≠ a) :
    ¬ ((a :: pat).isPrefixOf (c :: cs) = true) := by
  simp only [List.isPrefixOf, Bool.and_eq_true, beq_iff_eq]
  rintro ⟨rfl, -⟩
  exact h rfl

theorem matchAnyTag_none {c : Char} {cs : List Char} (h : c ≠ '<') :
    matchAnyTag (c :: cs) = none := by
  unfold matchAnyTag
  split
  · rename_i heq
    rw [List.cons.injEq] at heq
    exact absurd heq.1 h
  · rfl

theorem matchTT_none {c : Char} {cs : List Char} (h : c ≠ '<') :
    matchTT (c :: cs) = none := by
  unfold matchTT
  rw [if_neg (not_isPrefixOf_head h)]

theorem matchP_none {c : Char} {cs : List Char} (h : c ≠ '<') :
    matchP (c :: cs) = none := by
  unfold matchP
  rw [if_neg (not_isPrefixOf_head h)]

theorem matchBold_none {c : Char} {cs : List Char} (h : c ≠ '<') :
    matchBold (c :: cs) = none := by
  unfold matchBold
  rw [if_neg (not_isPrefixOf_head h), if_neg (not_isPrefixOf_head h)]

theorem matchEm_none {c : Char} {cs : List Char} (h : c ≠ '<') :
    matchEm (c :: cs) = none := by
  unfold matchEm
  rw [if_neg (not_isPrefixOf_head h), if_neg (not_isPrefixOf_head h)]

theorem matchUlOpen_none {c : Char} {cs : List Char} (h : c ≠ '<') :
    matchUlOpen (c :: cs) = none := by
  unfold matchUlOpen
  rw [if_neg (not_isPrefixOf_head h)]

theorem matchUlClose_none {c : Char} {cs : List Char} (h : c ≠ '<') :
    matchUlClose (c :: cs) = none := by
  unfold matchUlClose
  rw [if_neg (not_isPrefixOf_head h)]

theorem matchLi_none {c : Char} {cs : List Char} (h : c ≠ '<') :
    matchLi (c :: cs) = none := by
  unfold matchLi
  rw [if_neg (not_isPrefixOf_head h)]

theorem matchLit_none {a c : Char} {pat repl cs : List Char} (h : c ≠ a) :
    matchLit (a :: pat) repl (c :: cs) = none := by
  unfold matchLit
  rw [if_neg (not_isPrefixOf_head h)]

/-- A sub whose matcher only fires on strings starting with `'<'` is the
identity on strings not containing `'<'`. -/
theorem scanSub_id_of_no_lt (tryM : List Char → Option (List Char × List Char))
    (hM : ∀ c cs, c ≠ '<' → tryM (c :: cs) = none)
    (fuel : Nat) (s : List Char) (h : '<' ∉ s) : scanSub tryM fuel s = s := by
  refine scanSub_eq_self tryM fuel s (fun t ht hts => ?_)
  cases t with
  | nil => exact absurd rfl ht
  | cons c cs =>
    refine hM c cs (fun hc => h ?_)
    exact hts.subset (hc ▸ List.mem_cons_self c cs)

theorem tagPhase_id {s : List Char} (h : '<' ∉ s) : tagPhase s = s := by
  unfold tagPhase stripTags subLi subUlClose subUlOpen subEm subBold subP subTT
  rw [scanSub_id_of_no_lt matchTT (fun _ _ => matchTT_none) _ _ h,
      scanSub_id_of_no_lt matchP (fun _ _ => matchP_none) _ _ h,
      scanSub_id_of_no_lt matchBold (fun _ _ => matchBold_none) _ _ h,
      scanSub_id_of_no_lt matchEm (fun _ _ => matchEm_none) _ _ h,
      scanSub_id_of_no_lt matchUlOpen (fun _ _ => matchUlOpen_none) _ _ h,
      scanSub_id_of_no_lt matchUlClose (fun _ _ => matchUlClose_none) _ _ h,
      scanSub_id_of_no_lt matchLi (fun _ _ => matchLi_none) _ _ h,
      scanSub_id_of_no_lt matchAnyTag (fun _ _ => matchAnyTag_none) _ _ h]

/-- Entity replacement patterns all start with `'&'`: each `str.replace`
is the identity on strings not containing `'&'`. -/
theorem replaceAll_id_of_no_amp {pat : List Char} {repl s : List Char}
    (hp : ∃ t, pat = '&' :: t) (h : '&' ∉ s) : replaceAll pat repl s = s := by
  obtain ⟨t, rfl⟩ := hp
  unfold replaceAll
  refine scanSub_eq_self _ _ s (fun u hu hus => ?_)
  cases u with
  | nil => exact absurd rfl hu
  | cons c cs =>
    refine matchLit_none (fun hc => h ?_)
    exact hus.subset (hc ▸ List.mem_cons_self c cs)

theorem entPhase_id {s : List Char} (h : '&' ∉ s) : entPhase s = s := by
  unfold entPhase
  rw [replaceAll_id_of_no_amp ⟨_, rfl⟩ h, replaceAll_id_of_no_amp ⟨_, rfl⟩ h,
      replaceAll_id_of_no_amp ⟨_, rfl⟩ h, replaceAll_id_of_no_amp ⟨_, rfl⟩ h,
      replaceAll_id_of_no_amp ⟨_, rfl⟩ h, replaceAll_id_of_no_amp ⟨_, rfl⟩ h]

/-!
## Whitespace-stripping lemmas
-/

theorem head?_dropWhile_ne {p : Char → Bool} {l : List Char} {c : Char}
    (h : (l.dropWhile p).head? = some c) : p c = false := by
  induction l with
  | nil => simp at h
  | cons a as ih =>
    rw [List.dropWhile_cons] at h
    split at h
    · exact ih h
    · rename_i hp
      rw [List.head?_cons, Option.some.injEq] at h
      subst h
      exact Bool.eq_false_iff.mpr hp

theorem getLast?_of_suffix {s l : List Char} (h : s <:+ l) (hs : s ≠ []) :
    l.getLast? = s.getLast? := by
  obtain ⟨t, rfl⟩ := h
  exact List.getLast?_append_of_ne_nil t hs

/-- The result of a strip has no whitespace at either end. -/
def noEdgeWs (l : List Char) : Bool :=
  (match l.head? with | some c => !(isWs c) | none => true) &&
  (match l.getLast? with | some c => !(isWs c) | none => true)

theorem stripL_head_not_ws {t : List Char} {c : Char}
    (h : (stripL t).head? = some c) : isWs c = false := by
  unfold stripL at h
  rw [List.head?_reverse] at h
  have hne : (t.dropWhile isWs).reverse.dropWhile isWs ≠ [] := by
    intro he
    rw [he] at h
    simp at h
  have h2 : ((t.dropWhile isWs).reverse).getLast? = some c := by
    rw [getLast?_of_suffix (List.dropWhile_suffix isWs) hne]
    exact h
  rw [List.getLast?_reverse] at h2
  exact head?_dropWhile_ne h2

theorem stripL_last_not_ws {t : List Char} {c : Char}
    (h : (stripL t).getLast? = some c) : isWs c = false := by
  unfold stripL at h
  rw [List.getLast?_reverse] at h
  exact head?_dropWhile_ne h

theorem noEdgeWs_stripL (t : List Char) : noEdgeWs (stripL t) = true := by
  unfold noEdgeWs
  rw [Bool.and_eq_true]
  constructor
  · cases hh : (stripL t).head? with
    | none => rfl
    | some c =>
      show (!isWs c) = true
      rw [stripL_head_not_ws hh]
      rfl
  · cases hh : (stripL t).getLast? with
    | none => rfl
    | some c =>
      show (!isWs c) = true
      rw [stripL_last_not_ws hh]
      rfl

theorem stripL_of_noEdgeWs {t : List Char} (h : noEdgeWs t = true) : stripL t = t := by
  unfold noEdgeWs at h
  rw [Bool.and_eq_true] at h
  have hhead : t.dropWhile isWs = t := by
    cases t with
    | nil => rfl
    | cons c cs =>
      have h1 := h.1
      rw [List.head?_cons] at h1
      have h1' : (!isWs c) = true := h1
      rw [List.dropWhile_cons, if_neg]
      intro hws
      rw [hws] at h1'
      simp at h1'
  have hlast : t.reverse.dropWhile isWs = t.reverse := by
    cases ht : t.reverse with
    | nil => rfl
    | cons c cs =>
      have h2 := h.2
      rw [← List.head?_reverse, ht, List.head?_cons] at h2
      have h2' : (!isWs c) = true := h2
      rw [List.dropWhile_cons, if_neg]
      intro hws
      rw [hws] at h2'
      simp at h2'
  unfold stripL
  rw [hhead, hlast, List.reverse_reverse]

theorem stripL_isInfix (t : List Char) : stripL t <:+: t := by
  have h1 : t.dropWhile isWs <:+ t := List.dropWhile_suffix isWs
  have h2 : (t.dropWhile isWs).reverse.dropWhile isWs <:+ (t.dropWhile isWs).reverse :=
    List.dropWhile_suffix isWs
  have h3 := List.reverse_prefix.mpr h2
  rw [List.reverse_reverse] at h3
  exact h3.isInfix.trans h1.isInfix

theorem mem_stripL {t : List Char} {c : Char} (h : c ∈ stripL t) : c ∈ t :=
  (stripL_isInfix t).sublist.subset h

/-!
## Newline-collapsing lemmas
-/

def nlTriple : List Char := ['\n', '\n', '\n']

theorem scanSub_nil (tryM : List Char → Option (List Char × List Char)) :
    ∀ fuel, scanSub tryM fuel [] = [] := by
  intro fuel
  cases fuel <;> rfl

theorem matchCollapse_eq_some {s r t : List Char}
    (h : matchCollapse s = some (r, t)) :
    ∃ ds, s = '\n' :: '\n' :: '\n' :: ds ∧ r = ['\n', '\n'] ∧
      t = ds.dropWhile (· = '\n') := by
  unfold matchCollapse at h
  split at h
  · rename_i ds
    rw [Option.some.injEq, Prod.mk.injEq] at h
    exact ⟨ds, rfl, h.1.symm, h.2.symm⟩
  · exact absurd h (by simp)

theorem matchCollapse_none_head {s : List Char} (h : s.head? ≠ some '\n') :
    matchCollapse s = none := by
  unfold matchCollapse
  split
  · simp at h
  · rfl

theorem scanCollapse_head {s : List Char} (fuel : Nat) (h : s.head? ≠ some '\n') :
    (scanSub matchCollapse fuel s).head? = s.head? := by
  cases fuel with
  | zero => rfl
  | succ n =>
    cases s with
    | nil => rfl
    | cons c cs =>
      simp only [scanSub, matchCollapse_none_head h]
      rfl

theorem prefix_head {l out : List Char} {a : Char} (h : (a :: l) <+: out) :
    out.head? = some a := by
  obtain ⟨t, ht⟩ := h
  rw [← ht]
  rfl

theorem triple_cons_cons {out : List Char} (h1 : ¬ nlTriple <:+: out)
    (h2 : out.head? ≠ some '\n') : ¬ nlTriple <:+: '\n' :: '\n' :: out := by
  intro hinf
  rw [List.infix_cons_iff] at hinf
  rcases hinf with hpre | hinf
  · obtain ⟨t, ht⟩ := hpre
    simp only [nlTriple, List.cons_append, List.nil_append] at ht
    injection ht with _ ht
    injection ht with _ ht
    exact h2 (by rw [← ht]; rfl)
  · rw [List.infix_cons_iff] at hinf
    rcases hinf with hpre | hinf
    · obtain ⟨t, ht⟩ := hpre
      simp only [nlTriple, List.cons_append, List.nil_append] at ht
      injection ht with _ ht
      exact h2 (by rw [← ht]; rfl)
    · exact h1 hinf

theorem scanCollapse_no_triple :
    ∀ (fuel : Nat) (s : List Char), s.length ≤ fuel →
      ¬ nlTriple <:+: scanSub matchCollapse fuel s := by
  intro fuel
  induction fuel with
  | zero =>
    intro s hs
    rw [List.length_eq_zero.mp (Nat.le_zero.mp hs)]
    simp [scanSub, nlTriple]
  | succ n ih =>
    intro s hs
    cases s with
    | nil => simp [scanSub, nlTriple]
    | cons c cs =>
      have hcs : cs.length ≤ n := Nat.succ_le_succ_iff.mp hs
      rcases hm : matchCollapse (c :: cs) with _ | ⟨r, t⟩
      · simp only [scanSub, hm]
        intro hinf
        rw [List.infix_cons_iff] at hinf
        rcases hinf with hpre | hinf
        · -- nlTriple is a prefix of c :: scanSub mc n cs
          have hc : c = '\n' := by
            have := prefix_head (l := ['\n', '\n']) hpre
            rw [List.head?_cons, Option.some.injEq] at this
            exact this
          subst hc
          obtain ⟨t2, ht2⟩ := hpre
          simp only [nlTriple, List.cons_append, List.nil_append] at ht2
          injection ht2 with _ ht2
          -- ht2 : '\n' :: '\n' :: t2 = scanSub mc n cs
          cases cs with
          | nil =>
            rw [scanSub_nil] at ht2
            exact List.cons_ne_nil _ _ ht2
          | cons c2 cs2 =>
            by_cases hc2 : c2 = '\n'
            · subst hc2
              cases cs2 with
              | nil =>
                -- out = scanSub mc n ['\n']
                cases n with
                | zero => simp at hcs
                | succ n2 =>
                  have hm2 : matchCollapse ['\n'] = none := by
                    rcases hmm : matchCollapse ['\n'] with _ | pr
                    · rfl
                    · obtain ⟨ds, hds, -, -⟩ := matchCollapse_eq_some hmm
                      simp at hds
                  rw [scanSub, hm2] at ht2
                  injection ht2 with _ ht2
                  rw [scanSub_nil] at ht2
                  exact List.cons_ne_nil _ _ ht2
              | cons c3 cs3 =>
                by_cases hc3 : c3 = '\n'
                · subst hc3
                  simp [matchCollapse] at hm
                · -- out = scanSub mc n ('\n' :: c3 :: cs3) with c3 ≠ '\n'
                  cases n with
                  | zero => simp at hcs
                  | succ n2 =>
                    have hm2 : matchCollapse ('\n' :: c3 :: cs3) = none := by
                      rcases hmm : matchCollapse ('\n' :: c3 :: cs3) with _ | pr
                      · rfl
                      · obtain ⟨ds, hds, -, -⟩ := matchCollapse_eq_some hmm
                        rw [List.cons.injEq, List.cons.injEq] at hds
                        exact absurd hds.2.1 hc3
                    rw [scanSub, hm2] at ht2
                    injection ht2 with _ ht2
                    -- ht2 : '\n' :: t2 = scanSub mc n2 (c3 :: cs3)
                    have hh : (scanSub matchCollapse n2 (c3 :: cs3)).head? =
                        (c3 :: cs3).head? :=
                      scanCollapse_head n2 (by simp [hc3])
                    rw [← ht2, List.head?_cons, List.head?_cons, Option.some.injEq] at hh
                    exact hc3 hh.symm
            · -- c2 ≠ '\n'
              have hh : (scanSub matchCollapse n (c2 :: cs2)).head? =
                  (c2 :: cs2).head? :=
                scanCollapse_head n (by simp [hc2])
              rw [← ht2, List.head?_cons, List.head?_cons, Option.some.injEq] at hh
              exact hc2 hh.symm
        · exact ih cs hcs hinf
      · -- a match fired
        obtain ⟨ds, hds, hr, ht⟩ := matchCollapse_eq_some hm
        have hds' : cs = '\n' :: '\n' :: ds := by
          rw [List.cons.injEq] at hds
          exact hds.2
        have htlen : t.length ≤ n := by
          have h1 : t.length ≤ ds.length := by
            rw [ht]
            exact (List.dropWhile_sublist _).length_le
          have h2 : cs.length = ds.length + 2 := by
            rw [hds']
            simp
          omega
        have hthead : t.head? ≠ some '\n' := by
          intro he
          have := head?_dropWhile_ne (ht ▸ he)
          simp at this
        simp only [scanSub, hm, hr]
        have hout : (scanSub matchCollapse n t).head? ≠ some '\n' := by
          rw [scanCollapse_head n hthead]
          exact hthead
        simpa [List.cons_append, List.nil_append] using
          triple_cons_cons (ih t htlen) hout

theorem collapseBlank_no_triple (s : List Char) : ¬ nlTriple <:+: collapseBlank s :=
  scanCollapse_no_triple s.length s le_rfl

theorem collapseBlank_id {s : List Char} (h : ¬ nlTriple <:+: s) :
    collapseBlank s = s := by
  refine scanSub_eq_self _ _ s (fun t ht hts => ?_)
  rcases hm : matchCollapse t with _ | ⟨r, u⟩
  · rfl
  · obtain ⟨ds, hds, -, -⟩ := matchCollapse_eq_some hm
    have hpre : nlTriple <+: t := by
      rw [hds]
      exact ⟨ds, rfl⟩
    exact absurd (hpre.isInfix.trans hts.isInfix) h

theorem mem_scanCollapse :
    ∀ (fuel : Nat) (s : List Char) (c : Char),
      c ∈ scanSub matchCollapse fuel s → c ∈ s ∨ c = '\n' := by
  intro fuel
  induction fuel with
  | zero => exact fun s c h => Or.inl h
  | succ n ih =>
    intro s c h
    cases s with
    | nil => rw [scanSub_nil] at h; simp at h
    | cons a as =>
      rcases hm : matchCollapse (a :: as) with _ | ⟨r, t⟩
      · rw [scanSub, hm] at h
        rcases List.mem_cons.mp h with rfl | h2
        · exact Or.inl (List.mem_cons_self _ _)
        · rcases ih as c h2 with h3 | h3
          · exact Or.inl (List.mem_cons_of_mem _ h3)
          · exact Or.inr h3
      · obtain ⟨ds, hds, hr, ht⟩ := matchCollapse_eq_some hm
        rw [scanSub, hm] at h
        rcases List.mem_append.mp h with h2 | h2
        · rw [hr] at h2
          rcases List.mem_cons.mp h2 with rfl | h3
          · exact Or.inr rfl
          · rcases List.mem_cons.mp h3 with rfl | h4
            · exact Or.inr rfl
            · simp at h4
        · rcases ih t c h2 with h3 | h3
          · refine Or.inl ?_
            rw [hds]
            have : c ∈ ds := (List.dropWhile_sublist _).subset (ht ▸ h3)
            exact List.mem_cons_of_mem _ (List.mem_cons_of_mem _
              (List.mem_cons_of_mem _ this))
          · exact Or.inr h3

/-!
## Claims about the Fragment Converter (C4, C8, C10)
-/

/-- C8: the Fragment Converter decodes HTML entities after tag removal:
`convert("&lt;tag&gt;")` yields exactly the literal text `<tag>`, and the
decoded angle brackets are not consumed by any tag-stripping rule (the
output still contains them). -/
theorem C8_entity_decoding_roundtrip : htmlToRstS "&lt;tag&gt;" = "<tag>" := by decide

/-- C10: for every input string the Fragment Converter's output has no
leading and no trailing whitespace, and convert of the empty string is the
empty string. -/
theorem C10_convert_trimmed :
    ∀ s : List Char, noEdgeWs (htmlToRst s) = true ∧ htmlToRst [] = [] := by
  intro s
  refine ⟨?_, rfl⟩
  unfold htmlToRst
  split
  · rfl
  · exact noEdgeWs_stripL _

/-- C4 counterexample: `"&amp;lt;"` contains no HTML tag (indeed no `<` at
all), yet converting it twice is not the same as converting it once — the
first pass decodes `&amp;` to `&`, producing `&lt;`, and the second pass
decodes that to `<`.  This refutes the claim that the converter is
idempotent on every string containing no tags. -/
theorem C4_counterexample :
    '<' ∉ "&amp;lt;".data ∧
      htmlToRst (htmlToRst "&amp;lt;".data) ≠ htmlToRst "&amp;lt;".data :=
  ⟨by decide, by decide⟩

/-- C4 (amended): the Fragment Converter is idempotent on already-plain
text that contains no HTML tags (no `<` character) and no HTML character
entities (no `&` character): `convert(convert x) = convert x`. -/
theorem C4_amended_idempotent (s : List Char) (h1 : '<' ∉ s) (h2 : '&' ∉ s) :
    htmlToRst (htmlToRst s) = htmlToRst s := by
  by_cases hs : s.isEmpty
  · rw [List.isEmpty_iff.mp hs]
    rfl
  · have hstep : htmlToRst s = stripL (collapseBlank s) := by
      unfold htmlToRst
      rw [if_neg hs, tagPhase_id h1, entPhase_id h2]
    have humem : ∀ c, c ∈ stripL (collapseBlank s) → c ∈ s ∨ c = '\n' :=
      fun c hc => mem_scanCollapse s.length s c (mem_stripL hc)
    have hult : '<' ∉ stripL (collapseBlank s) := by
      intro hc
      rcases humem '<' hc with h | h
      · exact h1 h
      · exact absurd h (by decide)
    have huamp : '&' ∉ stripL (collapseBlank s) := by
      intro hc
      rcases humem '&' hc with h | h
      · exact h2 h
      · exact absurd h (by decide)
    rw [hstep]
    by_cases hu : (stripL (collapseBlank s)).isEmpty
    · rw [List.isEmpty_iff.mp hu]
      rfl
    · unfold htmlToRst
      rw [if_neg hu, tagPhase_id hult, entPhase_id huamp]
      have hnt : ¬ nlTriple <:+: stripL (collapseBlank s) := fun hinf =>
        collapseBlank_no_triple s (hinf.trans (stripL_isInfix (collapseBlank s)))
      rw [collapseBlank_id hnt]
      exact stripL_of_noEdgeWs (noEdgeWs_stripL _)

/-- Witness for C4 (amended): a concrete tag-free, entity-free string on
which the converter does real work (collapses blank lines, strips edges)
and is nevertheless idempotent. -/
theorem C4_amended_idempotent_witness :
    '<' ∉ "  a\n\n\n\nb  ".data ∧ '&' ∉ "  a\n\n\n\nb  ".data ∧
      htmlToRst (htmlToRst "  a\n\n\n\nb  ".data) = htmlToRst "  a\n\n\n\nb  ".data :=
  ⟨by decide, by decide, C4_amended_idempotent _ (by decide) (by decide)⟩

/-!
## Anchor disambiguation (C1)
-/

/-- Number of earlier occurrences of the `j`-th name among the first `j`
names: the value the per-section `name_count` dict holds for that name
when entry `j` is reached. -/
def occBefore (nms : List String) (j : Nat) : Nat :=
  ((nms.take j).filter (fun x => x == nms.getD j "")).length

/-- Characterisation of the per-section entry loop: when every entry
carries a name, rendering succeeds and block `j` is `entryBlock` at
count `cnt (name j) + (number of earlier entries in the section with the
same name)`. -/
theorem renderEntries_blocks (m : String) :
    ∀ (es : List JEntry) (nms : List String) (cnt : String → Nat),
      es.map JEntry.name = nms.map some →
      ∃ B : List (List String),
        renderEntries m cnt es = some B.flatten ∧
        B.length = es.length ∧
        ∀ j (hj : j < B.length),
          B.get ⟨j, hj⟩ =
            entryBlock m (cnt (nms.getD j "") + occBefore nms j) (nms.getD j "")
              ((es.getD j ⟨none, none, none, none⟩).code.getD "")
              ((es.getD j ⟨none, none, none, none⟩).description.getD "") := by
  intro es
  induction es with
  | nil =>
    intro nms cnt h
    exact ⟨[], rfl, rfl, fun j hj => absurd hj (by simp)⟩
  | cons e es ih =>
    intro nms cnt h
    cases nms with
    | nil => simp at h
    | cons nm nms' =>
      rw [List.map_cons, List.map_cons, List.cons.injEq] at h
      obtain ⟨hname, htail⟩ := h
      obtain ⟨B', hB', hlen, hget⟩ :=
        ih nms' (fun x => if x = nm then cnt nm + 1 else cnt x) htail
      refine ⟨entryBlock m (cnt nm) nm (e.code.getD "") (e.description.getD "") :: B',
        ?_, ?_, ?_⟩
      · simp only [renderEntries, hname, hB']
        rfl
      · simp [hlen]
      · intro j hj
        cases j with
        | zero =>
          show entryBlock m (cnt nm) nm (e.code.getD "") (e.description.getD "") =
            entryBlock m (cnt ((nm :: nms').getD 0 "") + occBefore (nm :: nms') 0)
              ((nm :: nms').getD 0 "") _ _
          simp [occBefore]
        | succ j' =>
          have hj' : j' < B'.length := Nat.succ_lt_succ_iff.mp hj
          show B'.get ⟨j', hj'⟩ = _
          rw [hget j' hj']
          have hgd : (nm :: nms').getD (j' + 1) "" = nms'.getD j' "" :=
            List.getD_cons_succ
          have hocc2 : occBefore (nm :: nms') (j' + 1) =
              (if nms'.getD j' "" = nm then occBefore nms' j' + 1
               else occBefore nms' j') := by
            unfold occBefore
            rw [List.getD_cons_succ, List.take_succ_cons, List.filter_cons]
            by_cases hx : nms'.getD j' "" = nm
            · rw [if_pos hx, if_pos (by rw [hx]; exact beq_self_eq_true nm),
                List.length_cons]
            · rw [if_neg hx,
                if_neg (by simp only [beq_iff_eq]; exact fun h => hx h.symm)]
          rw [hgd, hocc2]
          by_cases hx : nms'.getD j' "" = nm
          · rw [if_pos hx, if_pos hx, hx]
            have harith : cnt nm + 1 + occBefore nms' j' =
                cnt nm + (occBefore nms' j' + 1) := by omega
            rw [harith]
            rfl
          · rw [if_neg hx, if_neg hx]
            rfl

theorem entryBlock_head (m : String) (count : Nat) (nm cd ds : String) :
    (entryBlock m count nm cd ds).head? =
      some (".. _" ++ (if count = 0 then m ++ "." ++ nm
        else m ++ "." ++ nm ++ "." ++ toString count) ++ ":") := rfl

theorem entryBlock_heading (m : String) (count : Nat) (nm cd ds : String) :
    (entryBlock m count nm cd ds).getD 2 "" =
      (if count = 0 then nm else nm ++ " (" ++ toString (count + 1) ++ ")") := rfl

/-- Two entries named `foo` of different kinds. -/
def c1CounterData : DocData :=
  ⟨none, some [⟨some "foo", some "skType", none, none⟩,
    ⟨some "foo", some "skProc", none, none⟩]⟩

/-- Three entries named `foo`, all of kind `skProc`. -/
def c1FooData : DocData :=
  ⟨none, some [⟨some "foo", some "skProc", none, none⟩,
    ⟨some "foo", some "skProc", none, none⟩, ⟨some "foo", some "skProc", none, none⟩]⟩

/-- C1 counterexample: the `name_count` dict is created afresh inside each
kind section (line 193 sits inside the `for kind` loop), so occurrences of
a name are NOT counted across the whole page.  With one `foo` of kind
`skType` and one of kind `skProc`, the page contains the bare anchor
`.. _m.foo:` twice and `.. _m.foo.1:` not at all — the claim predicts the
second page-wide occurrence would get `m.foo.1`. -/
theorem C1_counterexample :
    (makeModuleRstLines "m" "T" c1CounterData).map
        (fun L => ((L.filter (fun l => l == ".. _m.foo:")).length,
                   (L.filter (fun l => l == ".. _m.foo.1:")).length)) = some (2, 0) := by
  decide

/-- C1 (amended): anchors are disambiguated per kind section, not per
page.  Within one section, for each symbol name the first occurrence of
that name in the section receives the bare anchor `module.name` and the
n-th duplicate (n ≥ 1) receives `module.name.n`, with headings `name` and
`name (n+1)`; in particular three same-kind entries named `foo` yield
anchors `module.foo`, `module.foo.1`, `module.foo.2` in that order, with
headings `foo`, `foo (2)`, `foo (3)`. -/
theorem C1_amended_anchors :
    (∀ (m : String) (es : List JEntry) (nms : List String),
        es.map JEntry.name = nms.map some →
        ∃ B : List (List String),
          renderEntries m (fun _ => 0) es = some B.flatten ∧
          B.length = es.length ∧
          ∀ j (hj : j < B.length),
            (B.get ⟨j, hj⟩).head? =
              some (".. _" ++ (if occBefore nms j = 0 then m ++ "." ++ nms.getD j ""
                else m ++ "." ++ nms.getD j "" ++ "." ++
                  toString (occBefore nms j)) ++ ":") ∧
            (B.get ⟨j, hj⟩).getD 2 "" =
              (if occBefore nms j = 0 then nms.getD j ""
               else nms.getD j "" ++ " (" ++ toString (occBefore nms j + 1) ++ ")")) ∧
    makeModuleRstLines "m" "T" c1FooData = some
      ["=", "T", "=", "",
       "Procedures", "----------", "",
       ".. _m.foo:", "", "foo", "~~~", "",
       ".. _m.foo.1:", "", "foo (2)", "~~~~~~~", "",
       ".. _m.foo.2:", "", "foo (3)", "~~~~~~~", ""] := by
  constructor
  · intro m es nms h
    obtain ⟨B, hB, hlen, hget⟩ := renderEntries_blocks m es nms (fun _ => 0) h
    refine ⟨B, hB, hlen, fun j hj => ?_⟩
    rw [hget j hj]
    constructor
    · simp only [entryBlock_head, Nat.zero_add]
    · simp only [entryBlock_heading, Nat.zero_add]
  · decide

def c1WitEntries : List JEntry :=
  [⟨some "a", some "skProc", none, none⟩, ⟨some "a", some "skProc", none, none⟩]

def c1WitNames : List String := ["a", "a"]

/-- Witness for C1 (amended) at a concrete two-entry overload. -/
theorem C1_amended_anchors_witness :
    c1WitEntries.map JEntry.name = c1WitNames.map some ∧
      ∃ B : List (List String),
        renderEntries "m" (fun _ => 0) c1WitEntries = some B.flatten ∧
        B.length = c1WitEntries.length ∧
        ∀ j (hj : j < B.length),
          (B.get ⟨j, hj⟩).head? =
            some (".. _" ++ (if occBefore c1WitNames j = 0
              then "m" ++ "." ++ c1WitNames.getD j ""
              else "m" ++ "." ++ c1WitNames.getD j "" ++ "." ++
                toString (occBefore c1WitNames j)) ++ ":") ∧
          (B.get ⟨j, hj⟩).getD 2 "" =
            (if occBefore c1WitNames j = 0 then c1WitNames.getD j ""
             else c1WitNames.getD j "" ++ " (" ++
               toString (occBefore c1WitNames j + 1) ++ ")") :=
  ⟨by decide, C1_amended_anchors.1 "m" c1WitEntries c1WitNames (by decide)⟩

/-!
## Kind grouping (C3, C9)
-/

theorem kindGet_cons_pos {k' : String} {l : List JEntry}
    {rest : List (String × List JEntry)} {k : String} (h : k' = k) :
    kindGet ((k', l) :: rest) k = l := by
  unfold kindGet
  rw [List.find?_cons_of_pos _ (by simp [h])]
  rfl

theorem kindGet_cons_neg {k' : String} {l : List JEntry}
    {rest : List (String × List JEntry)} {k : String} (h : ¬ k' = k) :
    kindGet ((k', l) :: rest) k = kindGet rest k := by
  unfold kindGet
  rw [List.find?_cons_of_neg _ (by simp [h])]

theorem kindGet_addToKind (acc : List (String × List JEntry)) (k0 k : String)
    (e : JEntry) :
    kindGet (addToKind acc k0 e) k =
      kindGet acc k ++ (if k0 = k then [e] else []) := by
  induction acc with
  | nil =>
    by_cases hk : k0 = k
    · rw [if_pos hk]
      show kindGet [(k0, [e])] k = [] ++ [e]
      rw [kindGet_cons_pos hk]
      rfl
    · rw [if_neg hk]
      show kindGet [(k0, [e])] k = [] ++ []
      rw [kindGet_cons_neg hk]
      rfl
  | cons p rest ih =>
    obtain ⟨k', l⟩ := p
    show kindGet
      (if k' = k0 then (k', l ++ [e]) :: rest else (k', l) :: addToKind rest k0 e) k = _
    by_cases h1 : k' = k0
    · rw [if_pos h1]
      by_cases h2 : k' = k
      · rw [kindGet_cons_pos h2, kindGet_cons_pos h2, if_pos (h1 ▸ h2)]
      · rw [kindGet_cons_neg h2, kindGet_cons_neg h2,
          if_neg (fun hk => h2 (h1.symm ▸ hk)), List.append_nil]
    · rw [if_neg h1]
      by_cases h2 : k' = k
      · rw [kindGet_cons_pos h2, kindGet_cons_pos h2,
          if_neg (fun hk => h1 (h2.trans hk.symm)), List.append_nil]
      · rw [kindGet_cons_neg h2, kindGet_cons_neg h2, ih]

/-- The `by_kind` dict's lookup is exactly a stable filter of the entries
by their (defaulted) kind tag: grouping preserves source order within a
kind. -/
theorem kindGet_byKind (es : List JEntry) (k : String) :
    kindGet (byKind es) k = es.filter (fun e => kindOf e == k) := by
  suffices h : ∀ acc, kindGet (es.foldl (fun acc e => addToKind acc (kindOf e) e) acc) k =
      kindGet acc k ++ es.filter (fun e => kindOf e == k) by
    have h2 := h []
    rw [show kindGet ([] : List (String × List JEntry)) k = [] from rfl,
      List.nil_append] at h2
    exact h2
  induction es with
  | nil =>
    intro acc
    rw [List.foldl_nil, List.filter_nil, List.append_nil]
  | cons e es ih =>
    intro acc
    rw [List.foldl_cons, ih, kindGet_addToKind, List.filter_cons]
    by_cases hk : kindOf e = k
    · rw [if_pos hk, if_pos (by simp [hk]), List.append_assoc]
      rfl
    · rw [if_neg hk, if_neg (by simp [hk]), List.append_nil]

theorem renderSections_congr (m : String) (es es' : List JEntry) :
    ∀ ks : List String,
      (∀ k ∈ ks, kindGet (byKind es) k = kindGet (byKind es') k) →
      renderSections m es ks = renderSections m es' ks := by
  intro ks
  induction ks with
  | nil => intro _; rfl
  | cons k ks ih =>
    intro h
    unfold renderSections
    have hsec : renderSection m es k = renderSection m es' k := by
      unfold renderSection
      rw [h k (List.mem_cons_self _ _)]
    rw [hsec, ih (fun k2 hk2 => h k2 (List.mem_cons_of_mem _ hk2))]

/-- Entries whose kind is not a known tag are invisible to every section
lookup. -/
theorem kindGet_filterKnown {es : List JEntry} {k : String} (hk : k ∈ KIND_ORDER) :
    kindGet (byKind (es.filter (fun e => KIND_ORDER.contains (kindOf e)))) k =
      kindGet (byKind es) k := by
  rw [kindGet_byKind, kindGet_byKind, List.filter_filter]
  refine List.filter_congr (fun e _ => ?_)
  by_cases he : kindOf e = k
  · have h1 : (kindOf e == k) = true := by simp [he]
    have h2 : KIND_ORDER.contains (kindOf e) = true := by
      rw [he]
      exact List.elem_iff.mpr hk
    rw [h1, h2]
    rfl
  · have h1 : (kindOf e == k) = false := by simp [he]
    rw [h1, Bool.false_and]

/-- `entries` restricted to the known kind tags. -/
def filterKnown (data : DocData) : DocData :=
  ⟨data.moduleDescription,
   data.entries.map (fun es => es.filter (fun e => KIND_ORDER.contains (kindOf e)))⟩

/-- Two entries: one of known kind, one of unknown kind `skWeird`. -/
def c3Data : DocData := ⟨none, some [⟨some "x", some "skWeird", none, none⟩]⟩

/-- C3 counterexample: an entry whose kind is the unknown tag `skWeird`
is neither placed in a default display section nor rejected with a
diagnostic — the assembled page is exactly the bare title block, with no
trace of the entry (`x` appears on no line) and no diagnostic channel. -/
theorem C3_counterexample :
    makeModuleRstLines "m" "T" c3Data = some ["=", "T", "=", ""] ∧
      (makeModuleRstLines "m" "T" c3Data).map
        (fun L => L.filter (fun l => l == "x" || l == ".. _m.x:")) = some [] :=
  ⟨by decide, by decide⟩

/-- C3 (amended): page assembly never crashes on an unknown kind, but the
entry is silently omitted: the assembled page (and its success/failure) is
identical to that of the same bundle with all unknown-kind entries
removed.  No default section is used and no diagnostic is produced. -/
theorem C3_amended_unknown_kinds (m t : String) (data : DocData) :
    makeModuleRstLines m t data = makeModuleRstLines m t (filterKnown data) := by
  have hdesc : (filterKnown data).moduleDescription = data.moduleDescription := rfl
  have hents : (filterKnown data).entries.getD [] =
      (data.entries.getD []).filter (fun e => KIND_ORDER.contains (kindOf e)) := by
    cases h : data.entries with
    | none =>
      unfold filterKnown
      rw [h]
      rfl
    | some es =>
      unfold filterKnown
      rw [h]
      rfl
  unfold makeModuleRstLines
  rw [hdesc, hents,
    renderSections_congr m (data.entries.getD [])
      ((data.entries.getD []).filter (fun e => KIND_ORDER.contains (kindOf e)))
      KIND_ORDER (fun k hk => (kindGet_filterKnown hk).symm)]

/-- C9: an absent `type` field defaults to the Procedure kind and the
entry lands in the `skProc` section's entry list; a present field is read
verbatim; and each section's entry list is a stable, order-preserving
filter of the input `entries` array (so entry order is preserved
exactly). -/
theorem C9_kind_default :
    (∀ e : JEntry, e.type = none → kindOf e = "skProc") ∧
    (∀ (e : JEntry) (s : String), e.type = some s → kindOf e = s) ∧
    (∀ (es : List JEntry) (k : String),
        kindGet (byKind es) k = es.filter (fun e => kindOf e == k)) ∧
    (∀ (es : List JEntry) (e : JEntry), e ∈ es → e.type = none →
        e ∈ kindGet (byKind es) "skProc") := by
  refine ⟨?_, ?_, kindGet_byKind, ?_⟩
  · intro e h
    unfold kindOf
    rw [h]
    rfl
  · intro e s h
    unfold kindOf
    rw [h]
    rfl
  · intro es e he ht
    rw [kindGet_byKind, List.mem_filter]
    refine ⟨he, ?_⟩
    unfold kindOf
    rw [ht]
    rfl

/-- Witness for C9 at a concrete entry with an absent kind field. -/
theorem C9_kind_default_witness :
    (⟨some "x", none, none, none⟩ : JEntry).type = none ∧
      (⟨some "x", none, none, none⟩ : JEntry) ∈
        kindGet (byKind [⟨some "x", none, none, none⟩]) "skProc" :=
  ⟨rfl, C9_kind_default.2.2.2 [⟨some "x", none, none, none⟩] _
    (List.mem_cons_self _ _) rfl⟩

/-!
## Page structure (C7)
-/

/-- The fixed page header emitted before any section: the `head` value of
`_make_module_rst` (title block plus optional module description). -/
def pageHeader (title : String) (data : DocData) : List String :=
  [mkBar '=' title.length, title, mkBar '=' title.length, ""] ++
    (if htmlToRstS (data.moduleDescription.getD "") = "" then []
     else [htmlToRstS (data.moduleDescription.getD ""), ""])

theorem renderSections_flatten (m : String) (es : List JEntry) :
    ∀ (ks : List String) (L : List String),
      renderSections m es ks = some L →
      ∃ secs : List (List String),
        List.Forall₂ (fun k sec => renderSection m es k = some sec) ks secs ∧
        L = secs.flatten := by
  intro ks
  induction ks with
  | nil =>
    intro L hL
    refine ⟨[], List.Forall₂.nil, ?_⟩
    have h : some ([] : List String) = some L := hL
    exact (Option.some.injEq _ _ ▸ h).symm
  | cons k ks ih =>
    intro L hL
    unfold renderSections at hL
    cases hsec : renderSection m es k with
    | none => rw [hsec] at hL; exact absurd hL (by simp)
    | some ls =>
      rw [hsec] at hL
      cases hrest : renderSections m es ks with
      | none => rw [hrest] at hL; exact absurd hL (by simp)
      | some L' =>
        rw [hrest] at hL
        have hLeq : ls ++ L' = L := by
          have : some (ls ++ L') = some L := hL
          exact Option.some.injEq _ _ ▸ this
        obtain ⟨secs, hall, hflat⟩ := ih L' hrest
        exact ⟨ls :: secs, List.Forall₂.cons hsec hall,
          by rw [List.flatten_cons, ← hflat, hLeq]⟩

theorem renderSection_of_empty {m k : String} {es : List JEntry}
    (h : kindGet (byKind es) k = []) : renderSection m es k = some [] := by
  unfold renderSection
  rw [h]
  rfl

theorem renderSection_of_nonempty {m k : String} {es : List JEntry} {L : List String}
    (hne : kindGet (byKind es) k ≠ []) (h : renderSection m es k = some L) :
    ∃ body, renderEntries m (fun _ => 0) (es.filter (fun e => kindOf e == k)) =
        some body ∧
      L = kindLabel k :: mkBar '-' (kindLabel k).length :: "" :: body := by
  unfold renderSection at h
  rw [if_neg (by simpa using hne)] at h
  cases hre : renderEntries m (fun _ => 0) (kindGet (byKind es) k) with
  | none => rw [hre] at h; exact absurd h (by simp)
  | some body =>
    rw [hre] at h
    have hL : kindLabel k :: mkBar '-' (kindLabel k).length :: "" :: body = L := by
      have : some (kindLabel k :: mkBar '-' (kindLabel k).length :: "" :: body) =
          some L := h
      exact Option.some.injEq _ _ ▸ this
    refine ⟨body, ?_, hL.symm⟩
    rw [← kindGet_byKind]
    exact hre

/-- One `skVar` entry before one `skType` entry (source order opposite to
display order). -/
def c7Data : DocData :=
  ⟨none, some [⟨some "v", some "skVar", none, none⟩,
    ⟨some "t", some "skType", none, none⟩]⟩

/-- C7: the assembled page is the fixed header followed by the per-kind
sections concatenated in `_KIND_ORDER` order (not source order); a kind
with no entries contributes nothing (in particular no heading); a
non-empty kind contributes its heading block followed by the rendering of
the stable filter of the input entries with that kind (preserving the
input's relative order); and concretely a bundle whose source order is
`skVar` then `skType` renders the Types section first and produces no
"Macros" heading. -/
theorem C7_fixed_section_order :
    (∀ (m t : String) (data : DocData),
        makeModuleRstLines m t data =
          (renderSections m (data.entries.getD []) KIND_ORDER).map
            (fun ls => pageHeader t data ++ ls)) ∧
    (∀ (m : String) (es : List JEntry) (ks L : List String),
        renderSections m es ks = some L →
        ∃ secs : List (List String),
          List.Forall₂ (fun k sec => renderSection m es k = some sec) ks secs ∧
          L = secs.flatten) ∧
    (∀ (m k : String) (es : List JEntry), kindGet (byKind es) k = [] →
        renderSection m es k = some []) ∧
    (∀ (m k : String) (es : List JEntry) (L : List String),
        kindGet (byKind es) k ≠ [] → renderSection m es k = some L →
        ∃ body, renderEntries m (fun _ => 0) (es.filter (fun e => kindOf e == k)) =
            some body ∧
          L = kindLabel k :: mkBar '-' (kindLabel k).length :: "" :: body) ∧
    makeModuleRstLines "m" "T" c7Data = some
      ["=", "T", "=", "",
       "Types", "-----", "", ".. _m.t:", "", "t", "~", "",
       "Variables", "---------", "", ".. _m.v:", "", "v", "~", ""] := by
  refine ⟨fun m t data => rfl, renderSections_flatten, ?_, ?_, by decide⟩
  · intro m k es h
    exact renderSection_of_empty h
  · intro m k es L hne h
    exact renderSection_of_nonempty hne h

/-- Witness for C7 at a concrete empty kind and a concrete non-empty kind. -/
theorem C7_fixed_section_order_witness :
    (kindGet (byKind ([] : List JEntry)) "skMacro" = [] ∧
      renderSection "m" ([] : List JEntry) "skMacro" = some []) ∧
    (kindGet (byKind c1WitEntries) "skProc" ≠ [] ∧
      ∃ body, renderEntries "m" (fun _ => 0)
          (c1WitEntries.filter (fun e => kindOf e == "skProc")) = some body ∧
        (["Procedures", "----------", "",
          ".. _m.a:", "", "a", "~", "", ".. _m.a.1:", "", "a (2)", "~~~~~", ""] :
            List String) =
          kindLabel "skProc" :: mkBar '-' (kindLabel "skProc").length :: "" :: body) :=
  ⟨⟨rfl, C7_fixed_section_order.2.2.1 "m" "skMacro" [] rfl⟩,
   ⟨by decide, C7_fixed_section_order.2.2.2.1 "m" "skProc" c1WitEntries _
      (by decide) (by decide)⟩⟩

/-!
## Orchestrator behaviour (C2, C6)
-/

theorem processModules_no_crash :
    ∀ (mods : List ModuleCfg) (gen errs : List String),
      (∀ c ∈ mods, moduleCrash c = false) →
      processModules mods gen errs =
        some (gen ++ (mods.filter moduleOk).map ModuleCfg.name,
              errs ++ (mods.filter (fun c => !moduleOk c)).map ModuleCfg.name) := by
  intro mods
  induction mods with
  | nil =>
    intro gen errs _
    simp [processModules]
  | cons c ms ih =>
    intro gen errs h
    have hms : ∀ c2 ∈ ms, moduleCrash c2 = false :=
      fun c2 hc2 => h c2 (List.mem_cons_of_mem _ hc2)
    have hc := h c (List.mem_cons_self _ _)
    simp only [processModules]
    cases hfeed : c.feed with
    | exporterFail =>
      have hok : moduleOk c = false := by unfold moduleOk; rw [hfeed]
      show processModules ms gen (errs ++ [c.name]) = _
      rw [ih gen (errs ++ [c.name]) hms, List.filter_cons, List.filter_cons, hok]
      simp
    | parseFail =>
      have hok : moduleOk c = false := by unfold moduleOk; rw [hfeed]
      show processModules ms gen (errs ++ [c.name]) = _
      rw [ih gen (errs ++ [c.name]) hms, List.filter_cons, List.filter_cons, hok]
      simp
    | parsed d =>
      unfold moduleCrash at hc
      rw [hfeed] at hc
      have hc' : (makeModuleRst c.name c.title d).isNone = false := hc
      show (match makeModuleRst c.name c.title d with
        | none => none
        | some _ => processModules ms (gen ++ [c.name]) errs) = _
      split
      · rename_i hmk
        rw [hmk] at hc'
        simp at hc'
      · rename_i r hmk
        have hok : moduleOk c = true := by
          unfold moduleOk
          rw [hfeed]
          show (makeModuleRst c.name c.title d).isSome = true
          rw [hmk]
          rfl
        rw [ih (gen ++ [c.name]) errs hms, List.filter_cons, List.filter_cons, hok]
        simp

theorem processModules_crash :
    ∀ (mods : List ModuleCfg) (gen errs : List String),
      (∃ c ∈ mods, moduleCrash c = true) →
      processModules mods gen errs = none := by
  intro mods
  induction mods with
  | nil =>
    rintro gen errs ⟨c, hc, -⟩
    simp at hc
  | cons c ms ih =>
    rintro gen errs ⟨c2, hc2, hcrash⟩
    simp only [processModules]
    rcases List.mem_cons.mp hc2 with rfl | hmem
    · unfold moduleCrash at hcrash
      cases hfeed : c2.feed with
      | exporterFail => rw [hfeed] at hcrash; simp at hcrash
      | parseFail => rw [hfeed] at hcrash; simp at hcrash
      | parsed d =>
        rw [hfeed] at hcrash
        have hcrash' : (makeModuleRst c2.name c2.title d).isNone = true := hcrash
        rw [Option.isNone_iff_eq_none] at hcrash'
        show (match makeModuleRst c2.name c2.title d with
          | none => none
          | some _ => processModules ms (gen ++ [c2.name]) errs) = none
        rw [hcrash']
    · cases hfeed : c.feed with
      | exporterFail => exact ih _ _ ⟨c2, hmem, hcrash⟩
      | parseFail => exact ih _ _ ⟨c2, hmem, hcrash⟩
      | parsed d =>
        show (match makeModuleRst c.name c.title d with
          | none => none
          | some _ => processModules ms (gen ++ [c.name]) errs) = none
        split
        · rfl
        · exact ih _ _ ⟨c2, hmem, hcrash⟩

/-- All modules succeeding implies no module crashes. -/
theorem moduleOk_no_crash {c : ModuleCfg} (h : moduleOk c = true) :
    moduleCrash c = false := by
  unfold moduleOk at h
  unfold moduleCrash
  cases hfeed : c.feed with
  | exporterFail => rfl
  | parseFail => rfl
  | parsed d =>
    rw [hfeed] at h
    have h' : (makeModuleRst c.name c.title d).isSome = true := h
    show (makeModuleRst c.name c.title d).isNone = false
    cases hmk : makeModuleRst c.name c.title d with
    | none => rw [hmk] at h'; simp at h'
    | some r => rfl

/-- The JSON bundle parses but its single entry has no `name` field. -/
def c2BadData : DocData := ⟨none, some [⟨none, some "skProc", none, none⟩]⟩

def c2BadCfg : ModuleCfg := ⟨"m", "T", Feed.parsed c2BadData⟩

/-- C2 counterexample: a successfully-parsed JSON bundle whose entry lacks
the `name` field makes `entry["name"]` (line 196) raise `KeyError` inside
`_make_module_rst`; `main` catches only exporter failures and
`json.JSONDecodeError`/`OSError` from loading, so the exception escapes
the per-module processing step and aborts the run (modelled by `none`):
the module is not merely added to the failed set, refuting "no exception
escapes ... for any input JSON". -/
theorem C2_counterexample :
    makeModuleRst "m" "T" c2BadData = none ∧ runMain [c2BadCfg] = none :=
  ⟨by decide, by decide⟩

/-- C2 (amended): errors from exporter invocation and JSON loading are
caught at the orchestrator boundary — the module is added to the failed
set and the loop continues, and when no module's page assembly raises, the
run completes with exactly the exporter/parse failures in the failed set
(in configured order) and the rest generated.  An error during page
assembly (an entry without a `name` field), however, is not caught: it
escapes the per-module processing step and aborts the whole run. -/
theorem C2_amended_error_boundary :
    (∀ mods : List ModuleCfg, (∀ c ∈ mods, moduleCrash c = false) →
        processModules mods [] [] =
          some ((mods.filter moduleOk).map ModuleCfg.name,
                (mods.filter (fun c => !moduleOk c)).map ModuleCfg.name)) ∧
    (∀ mods : List ModuleCfg, (∃ c ∈ mods, moduleCrash c = true) →
        processModules mods [] [] = none) := by
  constructor
  · intro mods h
    rw [processModules_no_crash mods [] [] h]
    simp
  · intro mods h
    exact processModules_crash mods [] [] h

def c6good : ModuleCfg := ⟨"alpha", "Alpha", Feed.parsed ⟨none, some []⟩⟩

def c6bad : ModuleCfg := ⟨"beta", "Beta", Feed.exporterFail⟩

/-- Witness for C2 (amended): a run with one fully-successful module and
one exporter failure completes, lists the failure, and continues past it. -/
theorem C2_amended_error_boundary_witness :
    (∀ c ∈ [c6good, c6bad], moduleCrash c = false) ∧
      processModules [c6good, c6bad] [] [] =
        some ((([c6good, c6bad].filter moduleOk).map ModuleCfg.name),
              (([c6good, c6bad].filter (fun c => !moduleOk c)).map ModuleCfg.name)) :=
  ⟨by decide, C2_amended_error_boundary.1 [c6good, c6bad] (by decide)⟩

/-- C6: with two configured modules of which exactly one fails at exporter
invocation, the run exits non-zero, the index lines list only the
succeeding module, and the failing module's name is in the reported
failure list; and in general the process exit status is 0 if and only if
every configured module succeeded (a module whose page assembly raises
also yields a non-zero interpreter exit, consistent with the iff). -/
theorem C6_exit_status :
    (runMain [c6good, c6bad] = some (1, ["alpha"], ["beta"]) ∧
      runIndexLines [c6good, c6bad] = some (makeApiIndexLines ["alpha"]) ∧
      "   alpha" ∈ makeApiIndexLines ["alpha"] ∧
      "   beta" ∉ makeApiIndexLines ["alpha"]) ∧
    (∀ mods : List ModuleCfg,
        processExit mods = 0 ↔ ∀ c ∈ mods, moduleOk c = true) := by
  refine ⟨⟨by decide, by decide, by decide, by decide⟩, ?_⟩
  intro mods
  constructor
  · intro h0 c hc
    unfold processExit runMain at h0
    by_cases hcrash : ∀ c2 ∈ mods, moduleCrash c2 = false
    · rw [processModules_no_crash mods [] [] hcrash] at h0
      have h0' : (if ((mods.filter (fun c => !moduleOk c)).map ModuleCfg.name).isEmpty
          then (0 : Nat) else 1) = 0 := h0
      by_cases hemp :
          ((mods.filter (fun c => !moduleOk c)).map ModuleCfg.name).isEmpty = true
      · rw [List.isEmpty_iff] at hemp
        have hfil : mods.filter (fun c => !moduleOk c) = [] := by
          cases hf : mods.filter (fun c => !moduleOk c) with
          | nil => rfl
          | cons a l => rw [hf] at hemp; simp at hemp
        have hone := List.filter_eq_nil_iff.mp hfil c hc
        cases hmo : moduleOk c with
        | false => exact absurd (by rw [hmo]; rfl) hone
        | true => rfl
      · rw [if_neg hemp] at h0'
        simp at h0'
    · push_neg at hcrash
      obtain ⟨c2, hc2, hcr⟩ := hcrash
      have hcr' : moduleCrash c2 = true := by
        cases h2 : moduleCrash c2 with
        | false => exact absurd h2 hcr
        | true => rfl
      rw [processModules_crash mods [] [] ⟨c2, hc2, hcr'⟩] at h0
      simp at h0
  · intro hall
    have hnc : ∀ c ∈ mods, moduleCrash c = false :=
      fun c hc => moduleOk_no_crash (hall c hc)
    unfold processExit runMain
    rw [processModules_no_crash mods [] [] hnc]
    have hfil : mods.filter (fun c => !moduleOk c) = [] :=
      List.filter_eq_nil_iff.mpr (fun c hc => by rw [hall c hc]; simp)
    rw [hfil]
    rfl

/-- Witness for C6 at a single fully-successful module: exit status 0. -/
theorem C6_exit_status_witness : processExit [c6good] = 0 :=
  (C6_exit_status.2 [c6good]).mpr (by decide)

/-!
## Signature cleaning (C5)
-/

theorem splitFirst_eq_some {pat : List Char} :
    ∀ (s a b : List Char), splitFirst pat s = some (a, b) → s = a ++ pat ++ b := by
  intro s
  induction s with
  | nil => intro a b h; exact absurd h (by simp [splitFirst])
  | cons c cs ih =>
    intro a b h
    unfold splitFirst at h
    split at h
    · rename_i hpre
      rw [Option.some.injEq, Prod.mk.injEq] at h
      obtain ⟨ha, hb⟩ := h
      obtain ⟨t, ht⟩ := List.isPrefixOf_iff_prefix.mp hpre
      have hdrop : (c :: cs).drop pat.length = t := by
        rw [← ht]
        exact List.drop_left pat t
      rw [← ha, ← hb, hdrop, List.nil_append, ← ht]
    · cases hs : splitFirst pat cs with
      | none => rw [hs] at h; exact absurd h (by simp)
      | some p =>
        obtain ⟨a', b'⟩ := p
        rw [hs] at h
        have h2 : (c :: a', b') = (a, b) := by
          have : some (c :: a', b') = some (a, b) := h
          exact Option.some.injEq _ _ ▸ this
        rw [Prod.mk.injEq] at h2
        rw [← h2.1, ← h2.2, ih a' b' hs]
        rfl

theorem matchPragma_shrink {s r t : List Char} (h : matchPragma s = some (r, t)) :
    t.length < s.length := by
  unfold matchPragma at h
  split at h
  · rename_i rest heq
    cases hs : splitFirst ['.', '}'] rest with
    | none => rw [hs] at h; exact absurd h (by simp)
    | some p =>
      obtain ⟨a, b⟩ := p
      rw [hs] at h
      have hb : t = b := by
        have h2 : some (([] : List Char), b) = some (r, t) := h
        have h3 := Option.some.injEq _ _ ▸ h2
        rw [Prod.mk.injEq] at h3
        exact h3.2.symm
      have hrest := splitFirst_eq_some rest a b hs
      have h4 : rest.length = a.length + 2 + b.length := by
        rw [hrest]
        simp
        omega
      have h5 : (s.dropWhile isWs).length ≤ s.length :=
        (List.dropWhile_sublist isWs).length_le
      rw [heq] at h5
      simp only [List.length_cons] at h5
      subst hb
      omega
  · exact absurd h (by simp)

theorem scanSub_fuel (tryM : List Char → Option (List Char × List Char))
    (hshr : ∀ s r t, tryM s = some (r, t) → t.length < s.length) :
    ∀ (n : Nat) (s : List Char) (f g : Nat), s.length = n → s.length ≤ f →
      s.length ≤ g → scanSub tryM f s = scanSub tryM g s := by
  intro n
  induction n using Nat.strong_induction_on with
  | _ n ih =>
    intro s f g hn hf hg
    cases s with
    | nil => cases f <;> cases g <;> rfl
    | cons c cs =>
      cases f with
      | zero => exact absurd hf (by simp)
      | succ f' =>
        cases g with
        | zero => exact absurd hg (by simp)
        | succ g' =>
          show (match tryM (c :: cs) with
            | some (repl, rest) => repl ++ scanSub tryM f' rest
            | none => c :: scanSub tryM f' cs) =
            (match tryM (c :: cs) with
            | some (repl, rest) => repl ++ scanSub tryM g' rest
            | none => c :: scanSub tryM g' cs)
          cases hm : tryM (c :: cs) with
          | none =>
            have hlt : cs.length < n := by
              rw [← hn]
              simp
            rw [ih cs.length hlt cs f' g' rfl (by simp at hf; omega)
              (by simp at hg; omega)]
          | some pr =>
            obtain ⟨repl, rest⟩ := pr
            have hlt : rest.length < n := by
              rw [← hn]
              exact hshr _ _ _ hm
            have hrest : rest.length < (c :: cs).length := hshr _ _ _ hm
            simp only [List.length_cons] at hrest hf hg
            show repl ++ scanSub tryM f' rest = repl ++ scanSub tryM g' rest
            rw [ih rest.length hlt rest f' g' rfl (by omega) (by omega)]

theorem splitFirst_dotBrace :
    ∀ (d rest : List Char), ¬ (['.', '}'] <:+: d) →
      splitFirst ['.', '}'] (d ++ '.' :: '}' :: rest) = some (d, rest) := by
  intro d
  induction d with
  | nil =>
    intro rest _
    show splitFirst ['.', '}'] ('.' :: '}' :: rest) = some ([], rest)
    unfold splitFirst
    rw [if_pos (show (['.', '}'].isPrefixOf ('.' :: '}' :: rest)) = true from by
      simp [List.isPrefixOf])]
    rfl
  | cons a d' ih =>
    intro rest hno
    show splitFirst ['.', '}'] (a :: (d' ++ '.' :: '}' :: rest)) = some (a :: d', rest)
    unfold splitFirst
    rw [if_neg ?hnp, ih rest (fun hinf => hno (List.infix_cons_iff.mpr (Or.inr hinf)))]
    · rfl
    case hnp =>
      intro hpre
      obtain ⟨t2, ht2⟩ := List.isPrefixOf_iff_prefix.mp hpre
      rw [List.cons_append, List.cons_append, List.nil_append] at ht2
      injection ht2 with h1 ht2
      cases d' with
      | nil =>
        rw [List.nil_append] at ht2
        injection ht2 with h2 _
        exact absurd h2.symm (by decide)
      | cons e d'' =>
        rw [List.cons_append] at ht2
        injection ht2 with h2 _
        exact hno ⟨[], d'', by rw [← h1, ← h2]; rfl⟩

theorem matchPragma_none_of_noOpen {t : List Char} (h : ¬ (['{', '.'] <:+: t)) :
    matchPragma t = none := by
  unfold matchPragma
  split
  · rename_i rest heq
    refine absurd ?_ h
    have hpre : ['{', '.'] <+: t.dropWhile isWs := ⟨rest, by rw [heq]; rfl⟩
    exact hpre.isInfix.trans (List.dropWhile_suffix isWs).isInfix
  · rfl

theorem matchPragma_ws_cons {a : Char} {t : List Char} (h : isWs a = true) :
    matchPragma (a :: t) = matchPragma t := by
  unfold matchPragma
  rw [List.dropWhile_cons, if_pos h]

theorem matchPragma_append_none :
    ∀ (c R : List Char), c ≠ [] → ¬ (['{', '.'] <:+: c) →
      (∀ ch, c.getLast? = some ch → isWs ch = false) →
      R.head? ≠ some '.' → matchPragma (c ++ R) = none := by
  intro c
  induction c with
  | nil => intro R h _ _ _; exact absurd rfl h
  | cons a c' ih =>
    intro R _ hno hlast hR
    by_cases hws : isWs a = true
    · cases c' with
      | nil => exact absurd (hlast a rfl) (by rw [hws]; simp)
      | cons e c'' =>
        rw [List.cons_append, matchPragma_ws_cons hws]
        refine ih R (by simp) (fun hinf => hno (List.infix_cons_iff.mpr (Or.inr hinf)))
          (fun ch hch => hlast ch ?_) hR
        rw [List.getLast?_cons_cons]
        exact hch
    · rw [List.cons_append]
      unfold matchPragma
      rw [List.dropWhile_cons, if_neg hws]
      split
      · rename_i rest heq
        injection heq with h1 h2
        cases c' with
        | nil =>
          rw [List.nil_append] at h2
          exact absurd (by rw [h2]; rfl) hR
        | cons e c'' =>
          rw [List.cons_append] at h2
          injection h2 with h2a _
          exact absurd ⟨[], c'', by rw [h1, h2a]; rfl⟩ hno
      · rfl

theorem getLast?_cons_tail {a : Char} {l : List Char} {ch : Char}
    (hne : l ≠ []) (h : l.getLast? = some ch) : (a :: l).getLast? = some ch := by
  cases l with
  | nil => exact absurd rfl hne
  | cons b l' =>
    rw [List.getLast?_cons_cons]
    exact h

theorem scanSub_pragma_skip :
    ∀ (c R : List Char) (f : Nat),
      ¬ (['{', '.'] <:+: c) →
      (∀ ch, c.getLast? = some ch → isWs ch = false) →
      R.head? ≠ some '.' →
      scanSub matchPragma (f + c.length) (c ++ R) = c ++ scanSub matchPragma f R := by
  intro c
  induction c with
  | nil =>
    intro R f _ _ _
    rw [List.length_nil, Nat.add_zero, List.nil_append]
    rfl
  | cons a c' ih =>
    intro R f hno hlast hR
    have hnone : matchPragma ((a :: c') ++ R) = none :=
      matchPragma_append_none (a :: c') R (by simp) hno hlast hR
    have hlen : f + (a :: c').length = (f + c'.length) + 1 := by
      simp [List.length_cons]
      omega
    rw [hlen]
    show (match matchPragma (a :: (c' ++ R)) with
      | some (repl, rest) => repl ++ scanSub matchPragma (f + c'.length) rest
      | none => a :: scanSub matchPragma (f + c'.length) (c' ++ R)) = _
    rw [List.cons_append] at hnone
    rw [hnone]
    show a :: scanSub matchPragma (f + c'.length) (c' ++ R) =
      a :: (c' ++ scanSub matchPragma f R)
    have hlast' : ∀ ch, c'.getLast? = some ch → isWs ch = false := by
      intro ch hch
      cases hc' : c' with
      | nil => rw [hc'] at hch; simp at hch
      | cons e c'' =>
        refine hlast ch ?_
        rw [hc', List.getLast?_cons_cons, ← hc']
        exact hch
    rw [ih R f (fun hinf => hno (List.infix_cons_iff.mpr (Or.inr hinf))) hlast' hR]

theorem matchPragma_block (w d T : List Char)
    (hw : ∀ ch ∈ w, isWs ch = true) (hd : ¬ (['.', '}'] <:+: d)) :
    matchPragma (w ++ '{' :: '.' :: (d ++ '.' :: '}' :: T)) = some ([], T) := by
  have hdrop : ∀ w2 : List Char, (∀ ch ∈ w2, isWs ch = true) →
      (w2 ++ '{' :: '.' :: (d ++ '.' :: '}' :: T)).dropWhile isWs =
        '{' :: '.' :: (d ++ '.' :: '}' :: T) := by
    intro w2
    induction w2 with
    | nil =>
      intro _
      rw [List.nil_append, List.dropWhile_cons, if_neg (by decide)]
    | cons x w' ihw =>
      intro hw2
      rw [List.cons_append, List.dropWhile_cons,
        if_pos (hw2 x (List.mem_cons_self _ _)),
        ihw (fun ch hch => hw2 ch (List.mem_cons_of_mem _ hch))]
  unfold matchPragma
  rw [hdrop w hw]
  show (splitFirst ['.', '}'] (d ++ '.' :: '}' :: T)).map (fun p => (([] : List Char), p.2)) =
    some ([], T)
  rw [splitFirst_dotBrace d T hd]
  rfl

/-- A run-free clean code segment: contains no pragma opener `{.`. -/
def NoOpen (c : List Char) : Prop := ¬ (['{', '.'] <:+: c)

/-- The segment does not end in whitespace (so the `\s*` of a following
match cannot reach back into it). -/
def endsNonWsB (c : List Char) : Bool :=
  match c.getLast? with
  | some ch => !(isWs ch)
  | none => true

theorem endsNonWsB_spec {c : List Char} (h : endsNonWsB c = true) :
    ∀ ch, c.getLast? = some ch → isWs ch = false := by
  intro ch hch
  unfold endsNonWsB at h
  rw [hch] at h
  have h' : (!isWs ch) = true := h
  simpa using h'

/-- A compiler-pragma block as `_PRAGMA_RE` matches it: optional leading
whitespace, `{.`, a body containing no `.}`, and the terminating `.}`. -/
def IsPragmaBlock (b : List Char) : Prop :=
  ∃ w d, (∀ ch ∈ w, isWs ch = true) ∧ ¬ (['.', '}'] <:+: d) ∧
    b = w ++ '{' :: '.' :: (d ++ ['.', '}'])

/-- A decomposition of a signature into clean code segments separated by
pragma blocks: `lead` is clean, then alternately a block and a clean
segment.  Every clean segment that is followed by a block must not end in
whitespace (the preceding whitespace belongs to the block's `\s*`). -/
def GoodSplit : List Char → List (List Char × List Char) → Prop
  | lead, [] => NoOpen lead
  | lead, (b, c) :: rest =>
    NoOpen lead ∧ endsNonWsB lead = true ∧ IsPragmaBlock b ∧ GoodSplit c rest

/-- The signature reassembled from the decomposition. -/
def assembleSplit : List Char → List (List Char × List Char) → List Char
  | lead, [] => lead
  | lead, (b, c) :: rest => lead ++ (b ++ assembleSplit c rest)

/-- Only the clean code segments, in order. -/
def keptSplit : List Char → List (List Char × List Char) → List Char
  | lead, [] => lead
  | lead, (_, c) :: rest => lead ++ keptSplit c rest

theorem pragmaScan_split :
    ∀ (parts : List (List Char × List Char)) (lead : List Char),
      GoodSplit lead parts →
      pragmaScan (assembleSplit lead parts) = keptSplit lead parts := by
  intro parts
  induction parts with
  | nil =>
    intro lead h
    show pragmaScan lead = lead
    refine scanSub_eq_self _ _ lead (fun t _ hts => ?_)
    exact matchPragma_none_of_noOpen (fun hinf => h (hinf.trans hts.isInfix))
  | cons p rest ih =>
    obtain ⟨b, c⟩ := p
    intro lead h
    obtain ⟨hno, hlast, hblock, hrest⟩ := h
    obtain ⟨w, d, hw, hd, rfl⟩ := hblock
    have hT : (w ++ '{' :: '.' :: (d ++ ['.', '}'])) ++ assembleSplit c rest =
        w ++ '{' :: '.' :: (d ++ '.' :: '}' :: assembleSplit c rest) := by
      simp [List.append_assoc]
    have hmatch : matchPragma
        ((w ++ '{' :: '.' :: (d ++ ['.', '}'])) ++ assembleSplit c rest) =
        some ([], assembleSplit c rest) := by
      rw [hT]
      exact matchPragma_block w d (assembleSplit c rest) hw hd
    have hRhead : ((w ++ '{' :: '.' :: (d ++ ['.', '}'])) ++
        assembleSplit c rest).head? ≠ some '.' := by
      cases hwc : w with
      | nil => simp
      | cons x w' =>
        have hx : isWs x = true := hw x (by rw [hwc]; exact List.mem_cons_self _ _)
        simp only [List.cons_append, List.head?_cons]
        intro he
        injection he with he'
        rw [he'] at hx
        exact absurd hx (by decide)
    have hstepA : pragmaScan
        (lead ++ ((w ++ '{' :: '.' :: (d ++ ['.', '}'])) ++ assembleSplit c rest)) =
        lead ++ pragmaScan
          ((w ++ '{' :: '.' :: (d ++ ['.', '}'])) ++ assembleSplit c rest) := by
      unfold pragmaScan
      have hl : (lead ++ ((w ++ '{' :: '.' :: (d ++ ['.', '}'])) ++
          assembleSplit c rest)).length =
          ((w ++ '{' :: '.' :: (d ++ ['.', '}'])) ++ assembleSplit c rest).length +
            lead.length := by
        rw [List.length_append]
        omega
      rw [hl]
      exact scanSub_pragma_skip lead _ _ hno (endsNonWsB_spec hlast) hRhead
    have hRne : (w ++ '{' :: '.' :: (d ++ ['.', '}'])) ++ assembleSplit c rest ≠ [] := by
      cases w <;> simp
    obtain ⟨r0, R', hR'⟩ := List.exists_cons_of_ne_nil hRne
    have hstepB : pragmaScan
        ((w ++ '{' :: '.' :: (d ++ ['.', '}'])) ++ assembleSplit c rest) =
        pragmaScan (assembleSplit c rest) := by
      unfold pragmaScan
      rw [hR'] at hmatch ⊢
      show (match matchPragma (r0 :: R') with
        | some (repl, rst) => repl ++ scanSub matchPragma R'.length rst
        | none => r0 :: scanSub matchPragma R'.length R') =
        scanSub matchPragma (assembleSplit c rest).length (assembleSplit c rest)
      rw [hmatch]
      show scanSub matchPragma R'.length (assembleSplit c rest) = _
      have hTlen : (assembleSplit c rest).length ≤ R'.length := by
        have := matchPragma_shrink hmatch
        simp only [List.length_cons] at this
        omega
      exact scanSub_fuel matchPragma (fun s r t ht => matchPragma_shrink ht)
        (assembleSplit c rest).length (assembleSplit c rest) R'.length
        (assembleSplit c rest).length rfl hTlen le_rfl
    show pragmaScan
      (lead ++ ((w ++ '{' :: '.' :: (d ++ ['.', '}'])) ++ assembleSplit c rest)) = _
    rw [hstepA, hstepB, ih c hrest]
    rfl

/-- C5: the Signature Cleaner removes exactly the dot-brace annotation
blocks: for any signature decomposed into clean code segments interleaved
with pragma blocks (whitespace + `{.` + first-close-terminated body +
`.}`, possibly spanning lines; zero, one or many blocks), the regex pass
yields precisely the clean segments concatenated, unaltered and in order,
and `_clean_code` is that followed by trimming surrounding whitespace. -/
theorem C5_clean_signature (parts : List (List Char × List Char)) (lead : List Char)
    (h : GoodSplit lead parts) :
    pragmaScan (assembleSplit lead parts) = keptSplit lead parts ∧
    cleanCode (assembleSplit lead parts) = stripL (keptSplit lead parts) := by
  have h1 := pragmaScan_split parts lead h
  refine ⟨h1, ?_⟩
  unfold cleanCode
  rw [h1]

def c5Sig : List Char := "proc add(a,b:int):int".data

def c5Blk : List Char := " \x7b.inline.\x7d".data

/-- Witness for C5 at the spec's example signature with one pragma block. -/
theorem C5_clean_signature_witness :
    GoodSplit c5Sig [(c5Blk, [])] ∧
      (pragmaScan (assembleSplit c5Sig [(c5Blk, [])]) = keptSplit c5Sig [(c5Blk, [])] ∧
       cleanCode (assembleSplit c5Sig [(c5Blk, [])]) =
         stripL (keptSplit c5Sig [(c5Blk, [])])) := by
  have hgood : GoodSplit c5Sig [(c5Blk, [])] := by
    refine ⟨?_, ?_, ⟨[' '], "inline".data, ?_, ?_, ?_⟩, ?_⟩
    · show ¬ (['{', '.'] <:+: c5Sig)
      decide
    · decide
    · decide
    · show ¬ (['.', '}'] <:+: "inline".data)
      decide
    · decide
    · show ¬ (['{', '.'] <:+: ([] : List Char))
      decide
  exact ⟨hgood, C5_clean_signature [(c5Blk, [])] c5Sig hgood⟩
